import Mathlib

/-
Verification of the ALG-BINARY Nash-Social-Welfare solver
(`ALG-BINARY_loese_Instanz.py`).

The Python source is shallowly embedded below.  Python lists become Lean
lists, in-place index assignment `l[i] = v` becomes `List.set`, reading
`l[i]` becomes `List.getD i d` (the algorithm only reads in-range indices,
where `getD` agrees with Python indexing), Python floats become real
numbers, `x ** (1/n)` becomes `Real.rpow`, and the `while` loop of the
breadth-first search becomes a fuel-indexed recursion whose fuel (the
number of agents) dominates the number of queue pops the Python loop can
perform.  The module-level globals `agent_quantity` / `item_quantity` are
threaded as explicit parameters `n` / `m`.
-/

namespace AlgBinary

open Real

/-- Embedding of the accumulation loop of `split_nsw`: `counter`,
`product` and `rooted_product` are the three loop variables; every 20th
value the running product is rooted by `1/n` and folded into
`rooted_product`.  After the loop the leftover product is rooted and
multiplied in. -/
noncomputable def split_nsw_aux (n : ℕ) : List ℝ → ℕ → ℝ → ℝ → ℝ
  | [], _, product, rooted_product => rooted_product * product ^ ((1 : ℝ) / n)
  | value :: rest, counter, product, rooted_product =>
    if (counter + 1) % 20 = 0 then
      split_nsw_aux n rest (counter + 1) 1
        (rooted_product * (product * value) ^ ((1 : ℝ) / n))
    else
      split_nsw_aux n rest (counter + 1) (product * value) rooted_product

/-- `split_nsw` from the source: chunked computation of the Nash social
welfare of a vector of agent utilities, rooting every block of 20 values
by `1/agent_quantity` separately. -/
noncomputable def split_nsw (n : ℕ) (agent_values : List ℝ) : ℝ :=
  split_nsw_aux n agent_values 0 1 1

/-- Two's-complement reduction of an integer into the signed 64-bit
range `[-2^63, 2^63)`: the value `numpy` stores after its silently
wrapping int64 arithmetic. -/
def wrap64 (z : ℤ) : ℤ := (z + 2 ^ 63) % 2 ^ 64 - 2 ^ 63

/-- `nash_social_welfare` from the source: the direct (non-chunked)
formula `power(prod(agent_values), abs(1/agent_quantity))`.  The
source's `numpy.prod` converts the Python int list to an int64 array
and multiplies with silent wraparound — the source itself guards
`prod(agent_values) < 0` (printing a warning, which is the only effect
of that branch and carries no mathematical content), which can only
fire because of that wrap.  The wrapped product is `wrap64` of the
exact product. -/
noncomputable def nash_social_welfare (n : ℕ) (agent_values : List ℤ) : ℝ :=
  ((wrap64 agent_values.prod : ℤ) : ℝ) ^ |(1 : ℝ) / n|

lemma split_nsw_aux_eq (n : ℕ) :
    ∀ (vs : List ℝ) (c : ℕ) (p r : ℝ), 0 ≤ p → (∀ v ∈ vs, 0 ≤ v) →
      split_nsw_aux n vs c p r = r * (p * vs.prod) ^ ((1 : ℝ) / n) := by
  intro vs
  induction vs with
  | nil =>
    intro c p r hp _
    simp [split_nsw_aux]
  | cons v rest ih =>
    intro c p r hp hvs
    have hv : 0 ≤ v := hvs v (List.mem_cons_self v rest)
    have hpv : 0 ≤ p * v := mul_nonneg hp hv
    have hrest : ∀ x ∈ rest, 0 ≤ x := fun x hx => hvs x (List.mem_cons_of_mem v hx)
    have hprod : 0 ≤ rest.prod := List.prod_nonneg hrest
    by_cases h20 : (c + 1) % 20 = 0
    · rw [split_nsw_aux, if_pos h20, ih (c + 1) 1 _ zero_le_one hrest]
      rw [List.prod_cons, one_mul,
        show p * (v * rest.prod) = (p * v) * rest.prod by ring,
        Real.mul_rpow hpv hprod]
      ring
    · rw [split_nsw_aux, if_neg h20, ih (c + 1) (p * v) r hpv hrest]
      rw [List.prod_cons, mul_assoc]

/-- On nonnegative inputs the chunked formula equals the exact (never
wrapping: Python ints are unbounded in `split_nsw`) rooted product. -/
lemma split_nsw_eq_rpow (n : ℕ) (vs : List ℝ) (hvs : ∀ v ∈ vs, 0 ≤ v) :
    split_nsw n vs = vs.prod ^ ((1 : ℝ) / n) := by
  rw [split_nsw, split_nsw_aux_eq n vs 0 1 1 zero_le_one hvs, one_mul, one_mul]

lemma split_nsw_nonneg (n : ℕ) (vs : List ℝ) (hvs : ∀ v ∈ vs, 0 ≤ v) :
    0 ≤ split_nsw n vs := by
  rw [split_nsw_eq_rpow n vs hvs]
  exact Real.rpow_nonneg (List.prod_nonneg hvs) _

lemma wrap64_eq_self (z : ℤ) (h0 : 0 ≤ z) (h1 : z < 2 ^ 63) : wrap64 z = z := by
  have h2 : (2 : ℤ) ^ 64 = 2 ^ 63 + 2 ^ 63 := by norm_num
  rw [wrap64, Int.emod_eq_of_lt (by linarith) (by linarith)]
  ring

/-- `calculate_agent_valuations`: starts from `[0] * agent_quantity` and
adds 1 to `agent_values[allocation[item]]` for every item. -/
def calculate_agent_valuations (n : ℕ) (allocation : List ℕ) : List ℤ :=
  allocation.foldl (fun agent_values a => agent_values.set a (agent_values.getD a 0 + 1))
    (List.replicate n (0 : ℤ))

/-- The count vector that `fast_nsw` evaluates: the valuation vector of
the current allocation with the count of `path[0]` (the receiver)
incremented and the count of `path[len(path)-1]` (the giver) decremented. -/
def fast_vals (n : ℕ) (path : List ℕ) (allocation : List ℕ) : List ℤ :=
  let agent_values := calculate_agent_valuations n allocation
  let receiver := path.getD 0 0
  let av1 := agent_values.set receiver (agent_values.getD receiver 0 + 1)
  let giver := path.getD (path.length - 1) 0
  av1.set giver (av1.getD giver 0 - 1)

/-- `fast_nsw`: the hypothetical welfare of reallocating one item along
`path`, i.e. `split_nsw` on the modified count vector. -/
noncomputable def fast_nsw (n : ℕ) (path : List ℕ) (allocation : List ℕ) : ℝ :=
  split_nsw n ((fast_vals n path allocation).map fun v : ℤ => (v : ℝ))

/-- `envy_list`: all items agent `x` likes but does not possess. -/
def envy_list (m : ℕ) (preferences : ℕ → ℕ → Bool) (x : ℕ) (allocation : List ℕ) :
    List ℕ :=
  (List.range m).filter fun item =>
    preferences x item && decide (allocation.getD item 0 ≠ x)

/-- `envied_agents`: maps every envied item of every agent to the agent
owning that item, giving the (multi-)edges of the envy graph. -/
def envied_agents (envied_items : List (List ℕ)) (allocation : List ℕ) :
    List (List ℕ) :=
  envied_items.map fun this_agent_envies =>
    this_agent_envies.map fun specific_item => allocation.getD specific_item 0

/-- `calculate_item_envy_relations`: envy edges, agent by agent. -/
def calculate_item_envy_relations (n m : ℕ) (preferences : ℕ → ℕ → Bool)
    (allocation : List ℕ) : List (List ℕ) :=
  envied_agents ((List.range n).map fun i => envy_list m preferences i allocation)
    allocation

/-- Embedding of `list(dict.fromkeys(l))`: keeps the first occurrence of
every element, dropping later duplicates; `seen` is the set of keys
already emitted. -/
def fromKeysAux : List ℕ → List ℕ → List ℕ
  | [], _ => []
  | x :: xs, seen =>
    if x ∈ seen then fromKeysAux xs seen else x :: fromKeysAux xs (x :: seen)

/-- `list(dict.fromkeys(l))`. -/
def fromKeys (l : List ℕ) : List ℕ := fromKeysAux l []

/-- `shorten_envy_list`: sorts every agent's envy list and removes
duplicates (Python: in-place `sort()` followed by `dict.fromkeys`). -/
def shorten_envy_list (agent_edges_list : List (List ℕ)) : List (List ℕ) :=
  agent_edges_list.map fun l => fromKeys (l.insertionSort (· ≤ ·))

/-- The mutable state of the BFS `while` loop: the node queue, the
visited flags, the tentative distances (`none` plays the role of the
string sentinel `"inf"`) and the shortest-path list. -/
structure BfsState where
  queue : List ℕ
  visited : List Bool
  distances : List (Option ℕ)
  paths : List (List ℕ)

/-- One execution of the body of the neighbour loop of `bfs` for the
neighbour `nbr` of the dequeued `node`: an unvisited neighbour is marked
visited, gets distance `distances[node] + 1`, path
`shortest_paths_to_node[node] + [node]`, and is enqueued. -/
def bfsStep (node : ℕ) (st : BfsState) (nbr : ℕ) : BfsState :=
  if st.visited.getD nbr true then st
  else
    { queue := st.queue ++ [nbr]
      visited := st.visited.set nbr true
      distances := st.distances.set nbr ((st.distances.getD node none).map (· + 1))
      paths := st.paths.set nbr (st.paths.getD node [] ++ [node]) }

/-- The `while len(queue) > 0` loop of `bfs`, as a fuel-indexed
recursion.  Every iteration pops the front node and folds `bfsStep` over
its adjacency list.  Since every node is enqueued at most once, `n` pops
always suffice, so running the loop with fuel `n` is the Python loop. -/
def bfs_loop (adj : List (List ℕ)) : ℕ → BfsState → BfsState
  | 0, st => st
  | fuel + 1, st =>
    match st.queue with
    | [] => st
    | node :: rest =>
      bfs_loop adj fuel
        ((adj.getD node []).foldl (bfsStep node) { st with queue := rest })

/-- `bfs`: breadth-first search from `start_node`.  After the loop, the
cleanup appends the destination to every path (except for the start
node) and empties the paths of unreachable destinations. -/
def bfs (n : ℕ) (adj : List (List ℕ)) (start_node : ℕ) : List (List ℕ) :=
  let st0 : BfsState :=
    { queue := [start_node]
      visited := (List.replicate n false).set start_node true
      distances := (List.replicate n (none : Option ℕ)).set start_node (some 0)
      paths := List.replicate n ([] : List ℕ) }
  let stF := bfs_loop adj n st0
  (List.range n).map fun i =>
    if i = start_node then stF.paths.getD i []
    else if stF.distances.getD i none = none then []
    else stF.paths.getD i [] ++ [i]

/-- `solve_APSP`: one BFS per agent; row `s` of the matrix holds the
shortest paths from source `s`. -/
def solve_APSP (n : ℕ) (adj : List (List ℕ)) : List (List (List ℕ)) :=
  (List.range n).map fun agent => bfs n adj agent

/-- The body of the double loop of `find_path`: replace the running best
`(best_path, current_maximum)` when the candidate path evaluates
strictly better. -/
noncomputable def bestStep (f : List ℕ → ℝ) (acc : List ℕ × ℝ) (path : List ℕ) :
    List ℕ × ℝ :=
  if f path > acc.2 then (path, f path) else acc

/-- `find_path`: brute-force scan of the whole APSP matrix (rows in
source order, entries in destination order), skipping empty paths,
keeping the strictly best hypothetical welfare; the winner is returned
only if it strictly beats the welfare of the current allocation. -/
noncomputable def find_path (n : ℕ) (apsp_matrix : List (List (List ℕ)))
    (allocation : List ℕ) : List ℕ :=
  let current_nsw :=
    split_nsw n ((calculate_agent_valuations n allocation).map fun v : ℤ => (v : ℝ))
  let r := apsp_matrix.foldl
    (fun acc node => node.foldl
      (fun acc2 path =>
        if path = [] then acc2
        else bestStep (fun p => fast_nsw n p allocation) acc2 path)
      acc)
    (([] : List ℕ), (0 : ℝ))
  if r.2 > current_nsw then r.1 else []

/-- `runtime`: the iteration bound `2 n (m+1) ln(n m)` claimed by the
paper. -/
noncomputable def runtime (agent_quantity item_quantity : ℕ) : ℝ :=
  2 * agent_quantity * (item_quantity + 1) *
    Real.log (agent_quantity * item_quantity)

/-- The loop budget of `main`: `round(runtime(n, m))` iterations.  (The
bound is an irrational multiple of a rational for all `n·m ≥ 2`, so
round-half-up agrees with Python's round-half-even here.) -/
noncomputable def iterCap (n m : ℕ) : ℕ := (round (runtime n m)).toNat

/-- `pick_items`: for every hop `(best_path[agent], best_path[agent+1])`
of the path, the first item in the giver's possession list that the
receiver likes is appended; a hop with no such item appends nothing.
(The `count` variable of the source is dead and dropped.)  The
`changing_allocation` argument is unused in the source and kept. -/
def pick_items (best_path : List ℕ) (changing_allocation : List ℕ)
    (possessions : List (List ℕ)) (preferences : ℕ → ℕ → Bool) : List ℕ :=
  (List.range (best_path.length - 1)).foldl
    (fun swapping_item_list agent =>
      match (possessions.getD (best_path.getD (agent + 1) 0) []).find?
          (fun giveable_item => preferences (best_path.getD agent 0) giveable_item) with
      | some giveable_item => swapping_item_list ++ [giveable_item]
      | none => swapping_item_list)
    []

/-- `find_possession`: the possession view, appending every item to the
list of its owner, in increasing item order. -/
def find_possession (n : ℕ) (allocation : List ℕ) : List (List ℕ) :=
  (List.range allocation.length).foldl
    (fun possessions item =>
      possessions.set (allocation.getD item 0)
        (possessions.getD (allocation.getD item 0) [] ++ [item]))
    (List.replicate n ([] : List ℕ))

/-- `execute_swap`: give item `swapping_list[k]` to agent
`best_path[k]`, for every position `k` of the swapping list. -/
def execute_swap (changing_allocation : List ℕ) (swapping_list : List ℕ)
    (best_path : List ℕ) : List ℕ :=
  (List.range swapping_list.length).foldl
    (fun allocation item =>
      allocation.set (swapping_list.getD item 0) (best_path.getD item 0))
    changing_allocation

/-- The observable outcome of the solving loop of `main`: the final
allocation, the recorded `global_swapping_list`, the number of loop
iterations executed, and whether the loop converged (found an empty best
path) or exhausted its budget. -/
structure SolveResult where
  allocation : List ℕ
  swaps : List (List ℕ)
  iterations : ℕ
  converged : Bool

/-- Part three of `main`: each iteration rebuilds the envy graph, solves
APSP, selects the best path; an empty best path means convergence,
otherwise the swap is picked, recorded and executed.  `fuel` is the
remaining iteration budget and `iter` the number of iterations already
executed. -/
noncomputable def solve_loop (n m : ℕ) (preferences : ℕ → ℕ → Bool) :
    ℕ → List ℕ → List (List ℕ) → ℕ → SolveResult
  | 0, allocation, swaps, iter => ⟨allocation, swaps, iter, false⟩
  | fuel + 1, allocation, swaps, iter =>
    let shortened_envy_relation :=
      shorten_envy_list (calculate_item_envy_relations n m preferences allocation)
    let apsp_matrix := solve_APSP n shortened_envy_relation
    let best_path := find_path n apsp_matrix allocation
    if best_path = [] then ⟨allocation, swaps, iter + 1, true⟩
    else
      let swapping_plan :=
        pick_items best_path allocation (find_possession n allocation) preferences
      solve_loop n m preferences fuel
        (execute_swap allocation swapping_plan best_path)
        (swaps ++ [swapping_plan]) (iter + 1)

/-- The solving loop of `main`, run with its full budget
`round(runtime(n, m))`. -/
noncomputable def solve_main (n m : ℕ) (preferences : ℕ → ℕ → Bool)
    (allocation : List ℕ) : SolveResult :=
  solve_loop n m preferences (iterCap n m) allocation [] 0

/-! ### Generic list helpers -/

lemma getD_set_self {α : Type} (l : List α) (i : ℕ) (a d : α) (h : i < l.length) :
    (l.set i a).getD i d = a := by
  simp [List.getD_eq_getElem?_getD, List.getElem?_set, h]

lemma getD_set_ne {α : Type} (l : List α) {i j : ℕ} (a d : α) (h : i ≠ j) :
    (l.set i a).getD j d = l.getD j d := by
  simp [List.getD_eq_getElem?_getD, List.getElem?_set, h]

lemma getD_map_range {α : Type} (f : ℕ → α) {k i : ℕ} (d : α) (h : i < k) :
    ((List.range k).map f).getD i d = f i := by
  simp [List.getD_eq_getElem?_getD, List.getElem?_map, List.getElem?_range h]

lemma getD_map_range_oob {α : Type} (f : ℕ → α) {k i : ℕ} (d : α) (h : ¬ i < k) :
    ((List.range k).map f).getD i d = d := by
  have hlen : (List.range k).length ≤ i := by simpa using Nat.le_of_not_lt h
  rw [List.getD_eq_getElem?_getD, List.getElem?_map,
    List.getElem?_eq_none hlen]
  rfl

lemma getD_mem_of_lt {α : Type} (l : List α) (i : ℕ) (d : α) (h : i < l.length) :
    l.getD i d ∈ l := by
  rw [List.getD_eq_getElem l d h]
  exact List.getElem_mem h

lemma head?_append_left {α : Type} (l l' : List α) (h : l ≠ []) :
    (l ++ l').head? = l.head? := by
  cases l with
  | nil => exact absurd rfl h
  | cons x xs => simp

/-! ### Valuation vector lemmas -/

lemma foldl_incr_length (l : List ℕ) :
    ∀ acc : List ℤ,
      (l.foldl (fun av a => av.set a (av.getD a 0 + 1)) acc).length = acc.length := by
  induction l with
  | nil => intro acc; rfl
  | cons x xs ih => intro acc; rw [List.foldl_cons, ih]; exact List.length_set ..

lemma calculate_agent_valuations_length (n : ℕ) (allocation : List ℕ) :
    (calculate_agent_valuations n allocation).length = n := by
  rw [calculate_agent_valuations, foldl_incr_length]
  exact List.length_replicate ..

lemma foldl_incr_nonneg (l : List ℕ) :
    ∀ acc : List ℤ, (∀ v ∈ acc, 0 ≤ v) →
      ∀ v ∈ l.foldl (fun av a => av.set a (av.getD a 0 + 1)) acc, 0 ≤ v := by
  induction l with
  | nil => intro acc hacc; exact hacc
  | cons x xs ih =>
    intro acc hacc
    refine ih _ (fun v hv => ?_)
    rcases List.mem_or_eq_of_mem_set hv with h | h
    · exact hacc v h
    · subst h
      have : 0 ≤ acc.getD x 0 := by
        by_cases hx : x < acc.length
        · exact hacc _ (getD_mem_of_lt acc x 0 hx)
        · rw [List.getD_eq_getElem?_getD, List.getElem?_eq_none (Nat.le_of_not_lt hx)]
          exact le_refl 0
      linarith

lemma calculate_agent_valuations_nonneg (n : ℕ) (allocation : List ℕ) :
    ∀ v ∈ calculate_agent_valuations n allocation, 0 ≤ v := by
  refine foldl_incr_nonneg _ _ (fun v hv => ?_)
  rw [List.eq_of_mem_replicate hv]

lemma calculate_agent_valuations_cast_nonneg (n : ℕ) (allocation : List ℕ) :
    ∀ v ∈ (calculate_agent_valuations n allocation).map (fun v : ℤ => (v : ℝ)), 0 ≤ v := by
  intro v hv
  rcases List.mem_map.mp hv with ⟨w, hw, rfl⟩
  exact_mod_cast calculate_agent_valuations_nonneg n allocation w hw

/-! ### fromKeys (dict.fromkeys) lemmas -/

lemma fromKeysAux_sublist : ∀ (l seen : List ℕ), (fromKeysAux l seen).Sublist l := by
  intro l
  induction l with
  | nil => intro seen; simp [fromKeysAux]
  | cons x xs ih =>
    intro seen
    rw [fromKeysAux]
    by_cases hx : x ∈ seen
    · rw [if_pos hx]
      exact (ih seen).cons x
    · rw [if_neg hx]
      exact (ih (x :: seen)).cons₂ x

lemma mem_fromKeysAux : ∀ (l seen : List ℕ) (x : ℕ),
    x ∈ fromKeysAux l seen ↔ x ∈ l ∧ x ∉ seen := by
  intro l
  induction l with
  | nil => intro seen x; simp [fromKeysAux]
  | cons y ys ih =>
    intro seen x
    rw [fromKeysAux]
    by_cases hy : y ∈ seen
    · rw [if_pos hy, ih]
      constructor
      · rintro ⟨h1, h2⟩
        exact ⟨List.mem_cons_of_mem y h1, h2⟩
      · rintro ⟨h1, h2⟩
        rcases List.mem_cons.mp h1 with rfl | h1
        · exact absurd hy h2
        · exact ⟨h1, h2⟩
    · rw [if_neg hy]
      constructor
      · intro hx
        rcases List.mem_cons.mp hx with rfl | hx
        · exact ⟨List.mem_cons_self .., hy⟩
        · rcases (ih (y :: seen) x).mp hx with ⟨h1, h2⟩
          exact ⟨List.mem_cons_of_mem y h1, fun hc => h2 (List.mem_cons_of_mem y hc)⟩
      · rintro ⟨h1, h2⟩
        rcases List.mem_cons.mp h1 with rfl | h1
        · exact List.mem_cons_self ..
        · by_cases hxy : x = y
          · subst hxy; exact List.mem_cons_self ..
          · exact List.mem_cons_of_mem y ((ih (y :: seen) x).mpr
              ⟨h1, fun hc => (List.mem_cons.mp hc).elim hxy h2⟩)

lemma nodup_fromKeysAux : ∀ (l seen : List ℕ), (fromKeysAux l seen).Nodup := by
  intro l
  induction l with
  | nil => intro seen; simp [fromKeysAux]
  | cons y ys ih =>
    intro seen
    rw [fromKeysAux]
    by_cases hy : y ∈ seen
    · rw [if_pos hy]; exact ih seen
    · rw [if_neg hy]
      refine List.nodup_cons.mpr ⟨?_, ih (y :: seen)⟩
      intro hc
      exact ((mem_fromKeysAux ys (y :: seen) y).mp hc).2 (List.mem_cons_self ..)

lemma mem_fromKeys (l : List ℕ) (x : ℕ) : x ∈ fromKeys l ↔ x ∈ l := by
  rw [fromKeys, mem_fromKeysAux]
  simp

lemma nodup_fromKeys (l : List ℕ) : (fromKeys l).Nodup := nodup_fromKeysAux l []

lemma sorted_fromKeys (l : List ℕ) (h : List.Sorted (· ≤ ·) l) :
    List.Sorted (· ≤ ·) (fromKeys l) :=
  List.Pairwise.sublist (fromKeysAux_sublist l []) h

/-! ### Envy graph characterization -/

lemma mem_envy_list (m : ℕ) (preferences : ℕ → ℕ → Bool) (x : ℕ)
    (allocation : List ℕ) (i : ℕ) :
    i ∈ envy_list m preferences x allocation ↔
      i < m ∧ preferences x i = true ∧ allocation.getD i 0 ≠ x := by
  rw [envy_list, List.mem_filter, List.mem_range]
  simp [and_assoc]

lemma envy_row_eq (n m : ℕ) (preferences : ℕ → ℕ → Bool) (allocation : List ℕ)
    {a : ℕ} (ha : a < n) :
    (shorten_envy_list (calculate_item_envy_relations n m preferences allocation)).getD a []
      = fromKeys (((envy_list m preferences a allocation).map
          (fun item => allocation.getD item 0)).insertionSort (· ≤ ·)) := by
  rw [shorten_envy_list, calculate_item_envy_relations, envied_agents,
    List.map_map, List.map_map]
  exact getD_map_range _ _ ha

lemma envy_row_oob (n m : ℕ) (preferences : ℕ → ℕ → Bool) (allocation : List ℕ)
    {a : ℕ} (ha : ¬ a < n) :
    (shorten_envy_list (calculate_item_envy_relations n m preferences allocation)).getD a []
      = [] := by
  rw [shorten_envy_list, calculate_item_envy_relations, envied_agents,
    List.map_map, List.map_map]
  exact getD_map_range_oob _ _ ha

lemma mem_envy_row (n m : ℕ) (preferences : ℕ → ℕ → Bool) (allocation : List ℕ)
    {a : ℕ} (ha : a < n) (b : ℕ) :
    b ∈ (shorten_envy_list (calculate_item_envy_relations n m preferences allocation)).getD a []
      ↔ b ≠ a ∧ ∃ i, i < m ∧ preferences a i = true ∧ allocation.getD i 0 = b := by
  rw [envy_row_eq n m preferences allocation ha, mem_fromKeys,
    List.mem_insertionSort, List.mem_map]
  constructor
  · rintro ⟨i, hi, rfl⟩
    rcases (mem_envy_list m preferences a allocation i).mp hi with ⟨h1, h2, h3⟩
    exact ⟨h3, i, h1, h2, rfl⟩
  · rintro ⟨hba, i, h1, h2, h3⟩
    refine ⟨i, (mem_envy_list m preferences a allocation i).mpr ⟨h1, h2, ?_⟩, h3⟩
    rw [h3]; exact hba

lemma sorted_envy_row (n m : ℕ) (preferences : ℕ → ℕ → Bool) (allocation : List ℕ)
    {a : ℕ} (ha : a < n) :
    List.Sorted (· ≤ ·)
      ((shorten_envy_list (calculate_item_envy_relations n m preferences allocation)).getD a []) := by
  rw [envy_row_eq n m preferences allocation ha]
  exact sorted_fromKeys _ (List.sorted_insertionSort _ _)

lemma nodup_envy_row (n m : ℕ) (preferences : ℕ → ℕ → Bool) (allocation : List ℕ)
    {a : ℕ} (ha : a < n) :
    ((shorten_envy_list (calculate_item_envy_relations n m preferences allocation)).getD a []).Nodup := by
  rw [envy_row_eq n m preferences allocation ha]
  exact nodup_fromKeys _

/-! ### Possession view characterization -/

lemma poss_fold_length (alloc : List ℕ) :
    ∀ (l : List ℕ) (acc : List (List ℕ)),
      (l.foldl (fun possessions item =>
        possessions.set (alloc.getD item 0)
          (possessions.getD (alloc.getD item 0) [] ++ [item])) acc).length = acc.length := by
  intro l
  induction l with
  | nil => intro acc; rfl
  | cons x xs ih => intro acc; rw [List.foldl_cons, ih]; exact List.length_set ..

lemma find_possession_length (n : ℕ) (allocation : List ℕ) :
    (find_possession n allocation).length = n := by
  rw [find_possession, poss_fold_length]
  exact List.length_replicate ..

lemma find_possession_getD (n : ℕ) (allocation : List ℕ) {b : ℕ} (hb : b < n) :
    (find_possession n allocation).getD b []
      = (List.range allocation.length).filter (fun i => allocation.getD i 0 == b) := by
  suffices h : ∀ k : ℕ,
      (((List.range k).foldl (fun possessions item =>
          possessions.set (allocation.getD item 0)
            (possessions.getD (allocation.getD item 0) [] ++ [item]))
        (List.replicate n ([] : List ℕ))).getD b []
      = (List.range k).filter (fun i => allocation.getD i 0 == b)) by
    exact h allocation.length
  intro k
  induction k with
  | zero =>
    simp [List.getD_eq_getElem?_getD, List.getElem?_replicate, hb]
  | succ k ih =>
    rw [List.range_succ, List.foldl_append, List.filter_append, List.foldl_cons,
      List.foldl_nil]
    have hlen : (((List.range k).foldl (fun possessions item =>
        possessions.set (allocation.getD item 0)
          (possessions.getD (allocation.getD item 0) [] ++ [item]))
        (List.replicate n ([] : List ℕ)))).length = n := by
      rw [poss_fold_length]; exact List.length_replicate ..
    by_cases hk : allocation.getD k 0 = b
    · rw [hk, getD_set_self _ _ _ _ (by rw [hlen]; exact hb), ih,
        List.filter_cons_of_pos (by simpa using hk), List.filter_nil]
    · rw [getD_set_ne _ _ _ hk, ih,
        List.filter_cons_of_neg (by simpa using hk), List.filter_nil,
        List.append_nil]

lemma mem_find_possession (n : ℕ) (allocation : List ℕ) {b : ℕ} (hb : b < n) (i : ℕ) :
    i ∈ (find_possession n allocation).getD b [] ↔
      i < allocation.length ∧ allocation.getD i 0 = b := by
  rw [find_possession_getD n allocation hb, List.mem_filter, List.mem_range]
  simp

lemma pairwise_find_possession (n : ℕ) (allocation : List ℕ) {b : ℕ} (hb : b < n) :
    ((find_possession n allocation).getD b []).Pairwise (· < ·) := by
  rw [find_possession_getD n allocation hb]
  exact List.Pairwise.sublist (List.filter_sublist _) (List.pairwise_lt_range _)

/-! ### find? lemmas -/

lemma find?_min_of_pairwise_lt (p : ℕ → Bool) :
    ∀ (l : List ℕ), l.Pairwise (· < ·) → ∀ {a : ℕ}, l.find? p = some a →
      ∀ b ∈ l, p b = true → a ≤ b := by
  intro l
  induction l with
  | nil => intro _ a h; simp [List.find?] at h
  | cons x xs ih =>
    intro hpw a hfind b hb hpb
    rcases hpx : p x with _ | _
    · rw [List.find?_cons, hpx] at hfind
      rcases List.mem_cons.mp hb with rfl | hb
      · rw [hpb] at hpx; exact absurd hpx (by simp)
      · exact ih (List.Pairwise.of_cons hpw) hfind b hb hpb
    · rw [List.find?_cons, hpx] at hfind
      have hax : a = x := (Option.some.inj hfind).symm
      subst hax
      rcases List.mem_cons.mp hb with rfl | hb
      · exact le_refl _
      · exact le_of_lt ((List.pairwise_cons.mp hpw).1 b hb)

/-! ### BFS invariants -/

/-- The edge relation of an adjacency-list graph. -/
def adjRel (adj : List (List ℕ)) (a b : ℕ) : Prop := b ∈ adj.getD a []

/-- Loop invariant of the BFS `while` loop: the lengths of the visited
and path arrays agree, the start node is visited and keeps an empty
path, every nonempty recorded path starts at `start` and is an edge
chain when the owner node is appended, every queued node other than the
start has a nonempty path, and a node with a finite tentative distance
(other than the start) has a nonempty path. -/
def BfsInv (adj : List (List ℕ)) (start : ℕ) (st : BfsState) : Prop :=
  st.visited.length = st.paths.length ∧
  st.visited.getD start true = true ∧
  st.paths.getD start [] = [] ∧
  (∀ v, st.paths.getD v [] ≠ [] →
    (st.paths.getD v []).head? = some start ∧
    List.Chain' (adjRel adj) (st.paths.getD v [] ++ [v])) ∧
  (∀ v ∈ st.queue, v ≠ start → st.paths.getD v [] ≠ []) ∧
  (∀ v, v ≠ start → st.distances.getD v none ≠ none → st.paths.getD v [] ≠ [])

lemma bfsStep_inv (adj : List (List ℕ)) (start node : ℕ) (st : BfsState) (nbr : ℕ)
    (hInv : BfsInv adj start st)
    (hnode : node = start ∨ st.paths.getD node [] ≠ [])
    (hnbr : nbr ∈ adj.getD node []) :
    BfsInv adj start (bfsStep node st nbr) ∧
      (node = start ∨ (bfsStep node st nbr).paths.getD node [] ≠ []) := by
  obtain ⟨hlen, hvs, hps, hpaths, hqueue, hdist⟩ := hInv
  rw [bfsStep]
  by_cases hv : st.visited.getD nbr true = true
  · rw [if_pos hv]
    exact ⟨⟨hlen, hvs, hps, hpaths, hqueue, hdist⟩, hnode⟩
  · rw [if_neg hv]
    have hnbrlt : nbr < st.visited.length := by
      by_contra hc
      rw [List.getD_eq_getElem?_getD, List.getElem?_eq_none (Nat.le_of_not_lt hc)] at hv
      exact hv rfl
    have hnbrlt' : nbr < st.paths.length := hlen ▸ hnbrlt
    have hnbrstart : nbr ≠ start := by
      intro hc; rw [hc, hvs] at hv; exact hv rfl
    set newpath := st.paths.getD node [] ++ [node] with hnp
    have hnpne : newpath ≠ [] := by simp [hnp]
    have hnphead : newpath.head? = some start := by
      rcases hnode with hstart | hpne
      · rw [hnp, hstart, hps]; rfl
      · rw [hnp, head?_append_left _ _ hpne]
        exact (hpaths node hpne).1
    have hnpchain : List.Chain' (adjRel adj) (newpath ++ [nbr]) := by
      rcases hnode with hstart | hpne
      · have : newpath ++ [nbr] = [node, nbr] := by
          rw [hnp, hstart, hps]; rfl
        rw [this]
        exact List.chain'_pair.mpr hnbr
      · refine List.chain'_append.mpr ⟨(hpaths node hpne).2, List.chain'_singleton _, ?_⟩
        intro x hx y hy
        rw [hnp, List.getLast?_concat] at hx
        simp only [List.head?_cons, Option.mem_def, Option.some.injEq] at hx hy
        rw [← hx, ← hy] at *
        exact hnbr
    refine ⟨⟨?_, ?_, ?_, ?_, ?_, ?_⟩, ?_⟩
    · simp [List.length_set, hlen]
    · rw [getD_set_ne _ _ _ hnbrstart]; exact hvs
    · rw [getD_set_ne _ _ _ hnbrstart]; exact hps
    · intro v hvne
      by_cases hveq : nbr = v
      · subst hveq
        rw [getD_set_self _ _ _ _ hnbrlt'] at hvne ⊢
        exact ⟨hnphead, hnpchain⟩
      · rw [getD_set_ne _ _ _ hveq] at hvne ⊢
        exact hpaths v hvne
    · intro v hvq hvstart
      simp only [List.mem_append, List.mem_singleton] at hvq
      by_cases hveq : nbr = v
      · subst hveq
        rw [getD_set_self _ _ _ _ hnbrlt']
        exact hnpne
      · rw [getD_set_ne _ _ _ hveq]
        rcases hvq with hvq | hvq
        · exact hqueue v hvq hvstart
        · exact absurd hvq.symm hveq
    · intro v hvstart hvd
      by_cases hveq : nbr = v
      · subst hveq
        rw [getD_set_self _ _ _ _ hnbrlt']
        exact hnpne
      · rw [getD_set_ne _ _ _ hveq] at hvd ⊢
        exact hdist v hvstart hvd
    · rcases hnode with hstart | hpne
      · exact Or.inl hstart
      · refine Or.inr ?_
        by_cases hveq : nbr = node
        · subst hveq
          rw [getD_set_self _ _ _ _ hnbrlt']
          exact hnpne
        · rw [getD_set_ne _ _ _ hveq]
          exact hpne

lemma bfs_fold_inv (adj : List (List ℕ)) (start node : ℕ) :
    ∀ (nbrs : List ℕ) (st : BfsState),
      (∀ x ∈ nbrs, x ∈ adj.getD node []) → BfsInv adj start st →
      (node = start ∨ st.paths.getD node [] ≠ []) →
      BfsInv adj start (nbrs.foldl (bfsStep node) st) := by
  intro nbrs
  induction nbrs with
  | nil => intro st _ hInv _; exact hInv
  | cons x xs ih =>
    intro st hmem hInv hnode
    rw [List.foldl_cons]
    have hx := bfsStep_inv adj start node st x hInv hnode
      (hmem x (List.mem_cons_self ..))
    exact ih _ (fun y hy => hmem y (List.mem_cons_of_mem x hy)) hx.1 hx.2

lemma bfs_loop_inv (adj : List (List ℕ)) (start : ℕ) :
    ∀ (fuel : ℕ) (st : BfsState), BfsInv adj start st →
      BfsInv adj start (bfs_loop adj fuel st) := by
  intro fuel
  induction fuel with
  | zero => intro st hInv; exact hInv
  | succ fuel ih =>
    intro st hInv
    rw [bfs_loop]
    rcases hq : st.queue with _ | ⟨node, rest⟩
    · exact hInv
    · obtain ⟨hlen, hvs, hps, hpaths, hqueue, hdist⟩ := hInv
      have hnode : node = start ∨ st.paths.getD node [] ≠ [] := by
        by_cases hns : node = start
        · exact Or.inl hns
        · exact Or.inr (hqueue node (by rw [hq]; exact List.mem_cons_self ..) hns)
      refine ih _ (bfs_fold_inv adj start node _ _ (fun x hx => hx) ?_ hnode)
      exact ⟨hlen, hvs, hps, hpaths,
        fun v hv hvs2 => hqueue v (by rw [hq]; exact List.mem_cons_of_mem node hv) hvs2,
        hdist⟩

lemma bfs_init_inv (n : ℕ) (adj : List (List ℕ)) (start : ℕ) (hs : start < n) :
    BfsInv adj start
      { queue := [start]
        visited := (List.replicate n false).set start true
        distances := (List.replicate n (none : Option ℕ)).set start (some 0)
        paths := List.replicate n ([] : List ℕ) } := by
  refine ⟨by simp, ?_, ?_, ?_, ?_, ?_⟩
  · exact getD_set_self _ _ _ _ (by simpa using hs)
  · simp only [List.getD_eq_getElem?_getD, List.getElem?_replicate]
    split <;> rfl
  · intro v hv
    exfalso
    apply hv
    simp only [List.getD_eq_getElem?_getD, List.getElem?_replicate]
    split <;> rfl
  · intro v hv hvstart
    exfalso
    exact hvstart (List.mem_singleton.mp hv)
  · intro v hvstart hvd
    exfalso
    apply hvd
    rw [getD_set_ne _ _ _ (fun hc => hvstart hc.symm)]
    simp only [List.getD_eq_getElem?_getD, List.getElem?_replicate]
    split <;> rfl

/-- Soundness of one BFS run: every nonempty stored path starts at the
source, ends at its destination, and follows envy-graph edges. -/
lemma bfs_sound (n : ℕ) (adj : List (List ℕ)) (start t : ℕ) (hs : start < n)
    (hne : (bfs n adj start).getD t [] ≠ []) :
    ((bfs n adj start).getD t []).head? = some start ∧
    ((bfs n adj start).getD t []).getLast? = some t ∧
    List.Chain' (adjRel adj) ((bfs n adj start).getD t []) := by
  by_cases ht : t < n
  · rw [bfs] at hne ⊢
    rw [getD_map_range _ _ ht] at hne ⊢
    have hInv := bfs_loop_inv adj start n _ (bfs_init_inv n adj start hs)
    obtain ⟨hlen, hvs, hps, hpaths, hqueue, hdist⟩ := hInv
    by_cases hts : t = start
    · rw [if_pos hts, hts, hps] at hne
      exact absurd rfl hne
    · rw [if_neg hts] at hne ⊢
      by_cases htd : (bfs_loop adj n
          { queue := [start]
            visited := (List.replicate n false).set start true
            distances := (List.replicate n (none : Option ℕ)).set start (some 0)
            paths := List.replicate n ([] : List ℕ) }).distances.getD t none = none
      · rw [if_pos htd] at hne
        exact absurd rfl hne
      · rw [if_neg htd] at hne ⊢
        have hpne := hdist t hts htd
        obtain ⟨hhead, hchain⟩ := hpaths t hpne
        exact ⟨by rw [head?_append_left _ _ hpne]; exact hhead,
          List.getLast?_concat _, hchain⟩
  · rw [bfs, getD_map_range_oob _ _ ht] at hne
    exact absurd rfl hne

lemma solve_APSP_getD (n : ℕ) (adj : List (List ℕ)) {s : ℕ} (hs : s < n) :
    (solve_APSP n adj).getD s [] = bfs n adj s :=
  getD_map_range _ _ hs

/-! ### find_path fold analysis -/

lemma foldl_rows_eq_join {β : Type} (g : β → List ℕ → β) :
    ∀ (M : List (List (List ℕ))) (acc : β),
      M.foldl (fun a row => row.foldl g a) acc = M.flatten.foldl g acc := by
  intro M
  induction M with
  | nil => intro acc; rfl
  | cons row rest ih =>
    intro acc
    rw [List.foldl_cons, ih, List.flatten_cons, List.foldl_append]

lemma foldl_skip_empty {β : Type} (g : β → List ℕ → β) :
    ∀ (l : List (List ℕ)) (acc : β),
      l.foldl (fun a p => if p = [] then a else g a p) acc
        = (l.filter (fun p => !p.isEmpty)).foldl g acc := by
  intro l
  induction l with
  | nil => intro acc; rfl
  | cons p rest ih =>
    intro acc
    rcases hp : p with _ | ⟨x, xs⟩
    · simpa using ih acc
    · rw [List.foldl_cons, if_neg (by simp), List.filter_cons_of_pos (by simp),
        List.foldl_cons]
      exact ih (g acc (x :: xs))

lemma foldBest_spec (f : List ℕ → ℝ) :
    ∀ (l : List (List ℕ)) (b : List ℕ) (m : ℝ),
      (l.foldl (bestStep f) (b, m) = (b, m) ∧ ∀ p ∈ l, f p ≤ m) ∨
      (m < (l.foldl (bestStep f) (b, m)).2 ∧
       (l.foldl (bestStep f) (b, m)).2 = f (l.foldl (bestStep f) (b, m)).1 ∧
       ∃ l1 l2, l = l1 ++ (l.foldl (bestStep f) (b, m)).1 :: l2 ∧
         (∀ q ∈ l1, f q < (l.foldl (bestStep f) (b, m)).2) ∧
         (∀ q ∈ l2, f q ≤ (l.foldl (bestStep f) (b, m)).2)) := by
  intro l
  induction l with
  | nil => intro b m; exact Or.inl ⟨rfl, by simp⟩
  | cons p rest ih =>
    intro b m
    rw [List.foldl_cons]
    by_cases hp : f p > m
    · rw [bestStep, if_pos hp]
      rcases ih p (f p) with ⟨heq, hall⟩ | ⟨hm, heq, l1, l2, hdec, hpre, hsuf⟩
      · refine Or.inr ?_
        rw [heq]
        refine ⟨hp, rfl, [], rest, by simp, by simp, fun q hq => hall q hq⟩
      · refine Or.inr ⟨lt_trans hp hm, heq, p :: l1, l2, ?_, ?_, hsuf⟩
        · rw [List.cons_append, ← hdec]
        · intro q hq
          rcases List.mem_cons.mp hq with rfl | hq
          · exact hm
          · exact hpre q hq
    · rw [bestStep, if_neg hp]
      rcases ih b m with ⟨heq, hall⟩ | ⟨hm, heq, l1, l2, hdec, hpre, hsuf⟩
      · refine Or.inl ⟨heq, fun q hq => ?_⟩
        rcases List.mem_cons.mp hq with rfl | hq
        · exact le_of_not_lt hp
        · exact hall q hq
      · refine Or.inr ⟨hm, heq, p :: l1, l2, ?_, ?_, hsuf⟩
        · rw [List.cons_append, ← hdec]
        · intro q hq
          rcases List.mem_cons.mp hq with rfl | hq
          · exact lt_of_le_of_lt (le_of_not_lt hp) hm
          · exact hpre q hq

lemma find_path_eq (n : ℕ) (apsp_matrix : List (List (List ℕ))) (allocation : List ℕ) :
    find_path n apsp_matrix allocation =
      if (apsp_matrix.foldl
            (fun acc node => node.foldl
              (fun acc2 path =>
                if path = [] then acc2
                else bestStep (fun p => fast_nsw n p allocation) acc2 path)
              acc)
            (([] : List ℕ), (0 : ℝ))).2
          > split_nsw n ((calculate_agent_valuations n allocation).map fun v : ℤ => (v : ℝ))
      then (apsp_matrix.foldl
            (fun acc node => node.foldl
              (fun acc2 path =>
                if path = [] then acc2
                else bestStep (fun p => fast_nsw n p allocation) acc2 path)
              acc)
            (([] : List ℕ), (0 : ℝ))).1
      else [] := rfl

/-! ### Chain bound -/

lemma chain'_all_lt (n : ℕ) (R : ℕ → ℕ → Prop) (hR : ∀ a b, a < n → R a b → b < n) :
    ∀ (l : List ℕ), List.Chain' R l → ∀ {s : ℕ}, l.head? = some s → s < n →
      ∀ x ∈ l, x < n := by
  intro l
  induction l with
  | nil => intro _ s h; simp at h
  | cons x xs ih =>
    intro hch s hh hs y hy
    have hxs : x = s := by simpa using hh
    subst hxs
    rcases List.mem_cons.mp hy with rfl | hy
    · exact hs
    · rcases hxs2 : xs with _ | ⟨z, zs⟩
      · rw [hxs2] at hy; simp at hy
      · subst hxs2
        have hch2 := List.chain'_cons.mp hch
        exact ih hch2.2 rfl (hR x z hs hch2.1) y hy

/-! ### pick_items lemmas -/

lemma foldl_opt_append (f : ℕ → Option ℕ) :
    ∀ (l : List ℕ) (acc : List ℕ),
      l.foldl (fun acc2 k =>
          match f k with
          | some x => acc2 ++ [x]
          | none => acc2) acc
        = acc ++ l.filterMap f := by
  intro l
  induction l with
  | nil => intro acc; simp
  | cons x xs ih =>
    intro acc
    rw [List.foldl_cons, List.filterMap_cons]
    rcases hfx : f x with _ | v
    · rw [ih]
    · rw [ih, List.append_assoc, List.singleton_append]

lemma pick_items_eq (best_path changing_allocation : List ℕ)
    (possessions : List (List ℕ)) (preferences : ℕ → ℕ → Bool) :
    pick_items best_path changing_allocation possessions preferences
      = (List.range (best_path.length - 1)).filterMap
          (fun agent => (possessions.getD (best_path.getD (agent + 1) 0) []).find?
            (fun giveable_item => preferences (best_path.getD agent 0) giveable_item)) := by
  rw [pick_items, foldl_opt_append, List.nil_append]

lemma filterMap_all_some (f : ℕ → Option ℕ) :
    ∀ l : List ℕ, (∀ x ∈ l, (f x).isSome) →
      l.filterMap f = l.map (fun x => (f x).getD 0) := by
  intro l
  induction l with
  | nil => intro _; rfl
  | cons x xs ih =>
    intro hall
    rcases hfx : f x with _ | v
    · have := hall x (List.mem_cons_self ..)
      rw [hfx] at this
      simp at this
    · rw [List.filterMap_cons, hfx, List.map_cons, hfx,
        ih (fun y hy => hall y (List.mem_cons_of_mem x hy))]
      rfl

/-! ### execute_swap lemmas -/

lemma execute_swap_length (changing_allocation swapping_list best_path : List ℕ) :
    (execute_swap changing_allocation swapping_list best_path).length
      = changing_allocation.length := by
  rw [execute_swap]
  generalize List.range swapping_list.length = l
  induction l generalizing changing_allocation with
  | nil => rfl
  | cons x xs ih => rw [List.foldl_cons, ih]; exact List.length_set ..

lemma execute_swap_bound (n : ℕ) (hn : 0 < n) (changing_allocation swapping_list best_path : List ℕ)
    (halloc : ∀ x ∈ changing_allocation, x < n) (hpath : ∀ x ∈ best_path, x < n) :
    ∀ x ∈ execute_swap changing_allocation swapping_list best_path, x < n := by
  rw [execute_swap]
  generalize List.range swapping_list.length = l
  induction l generalizing changing_allocation with
  | nil => exact halloc
  | cons k ks ih =>
    rw [List.foldl_cons]
    refine ih _ (fun x hx => ?_)
    rcases List.mem_or_eq_of_mem_set hx with hmem | hval
    · exact halloc x hmem
    · subst hval
      by_cases hk : k < best_path.length
      · exact hpath _ (getD_mem_of_lt best_path k 0 hk)
      · rw [List.getD_eq_getElem?_getD, List.getElem?_eq_none (Nat.le_of_not_lt hk)]
        exact hn

/-! ### solve_loop lemmas -/

lemma solve_loop_succ (n m : ℕ) (preferences : ℕ → ℕ → Bool) (fuel : ℕ)
    (allocation : List ℕ) (swaps : List (List ℕ)) (iter : ℕ) :
    solve_loop n m preferences (fuel + 1) allocation swaps iter =
      if find_path n
          (solve_APSP n (shorten_envy_list (calculate_item_envy_relations n m preferences allocation)))
          allocation = [] then
        ⟨allocation, swaps, iter + 1, true⟩
      else
        solve_loop n m preferences fuel
          (execute_swap allocation
            (pick_items
              (find_path n
                (solve_APSP n (shorten_envy_list (calculate_item_envy_relations n m preferences allocation)))
                allocation)
              allocation (find_possession n allocation) preferences)
            (find_path n
              (solve_APSP n (shorten_envy_list (calculate_item_envy_relations n m preferences allocation)))
              allocation))
          (swaps ++ [pick_items
            (find_path n
              (solve_APSP n (shorten_envy_list (calculate_item_envy_relations n m preferences allocation)))
              allocation)
            allocation (find_possession n allocation) preferences])
          (iter + 1) := rfl

lemma solve_loop_iterations_le (n m : ℕ) (preferences : ℕ → ℕ → Bool) :
    ∀ (fuel : ℕ) (allocation : List ℕ) (swaps : List (List ℕ)) (iter : ℕ),
      (solve_loop n m preferences fuel allocation swaps iter).iterations ≤ iter + fuel := by
  intro fuel
  induction fuel with
  | zero => intro allocation swaps iter; exact le_refl _
  | succ fuel ih =>
    intro allocation swaps iter
    rw [solve_loop_succ]
    by_cases hb : find_path n
        (solve_APSP n (shorten_envy_list (calculate_item_envy_relations n m preferences allocation)))
        allocation = []
    · rw [if_pos hb]
      show iter + 1 ≤ iter + (fuel + 1)
      omega
    · rw [if_neg hb]
      calc (solve_loop n m preferences fuel _ _ (iter + 1)).iterations
          ≤ (iter + 1) + fuel := ih _ _ _
        _ = iter + (fuel + 1) := by omega

lemma solve_loop_exhausted (n m : ℕ) (preferences : ℕ → ℕ → Bool) :
    ∀ (fuel : ℕ) (allocation : List ℕ) (swaps : List (List ℕ)) (iter : ℕ),
      (solve_loop n m preferences fuel allocation swaps iter).converged = false →
      (solve_loop n m preferences fuel allocation swaps iter).iterations = iter + fuel := by
  intro fuel
  induction fuel with
  | zero => intro allocation swaps iter _; rfl
  | succ fuel ih =>
    intro allocation swaps iter hc
    rw [solve_loop_succ] at hc ⊢
    by_cases hb : find_path n
        (solve_APSP n (shorten_envy_list (calculate_item_envy_relations n m preferences allocation)))
        allocation = []
    · rw [if_pos hb] at hc
      exact absurd hc (by simp)
    · rw [if_neg hb] at hc ⊢
      rw [ih _ _ _ hc]
      omega

lemma solve_loop_alloc_length (n m : ℕ) (preferences : ℕ → ℕ → Bool) :
    ∀ (fuel : ℕ) (allocation : List ℕ) (swaps : List (List ℕ)) (iter : ℕ),
      (solve_loop n m preferences fuel allocation swaps iter).allocation.length
        = allocation.length := by
  intro fuel
  induction fuel with
  | zero => intro allocation swaps iter; rfl
  | succ fuel ih =>
    intro allocation swaps iter
    rw [solve_loop_succ]
    by_cases hb : find_path n
        (solve_APSP n (shorten_envy_list (calculate_item_envy_relations n m preferences allocation)))
        allocation = []
    · rw [if_pos hb]
    · rw [if_neg hb, ih, execute_swap_length]

/-! ### Iteration cap positivity -/

lemma iterCap_pos (n m : ℕ) (hn : 2 ≤ n) (hm : n ≤ m) : 1 ≤ iterCap n m := by
  have hn2 : (2 : ℝ) ≤ (n : ℝ) := by exact_mod_cast hn
  have hm2 : (2 : ℝ) ≤ (m : ℝ) := by
    have : 2 ≤ m := le_trans hn hm
    exact_mod_cast this
  have h4 : (4 : ℝ) ≤ (n : ℝ) * m := by nlinarith
  have hpos : (0 : ℝ) < (n : ℝ) * m := by linarith
  have hexp : Real.exp 1 ≤ (n : ℝ) * m :=
    le_trans (le_of_lt (lt_trans Real.exp_one_lt_d9 (by norm_num))) h4
  have hlog : (1 : ℝ) ≤ Real.log ((n : ℝ) * m) :=
    (Real.le_log_iff_exp_le hpos).mpr hexp
  have hfac : (12 : ℝ) ≤ 2 * (n : ℝ) * ((m : ℝ) + 1) := by nlinarith
  have hrt : (12 : ℝ) ≤ runtime n m := by
    rw [runtime]
    calc (12 : ℝ) = 12 * 1 := by norm_num
      _ ≤ (2 * (n : ℝ) * ((m : ℝ) + 1)) * Real.log ((n : ℝ) * m) :=
          mul_le_mul hfac hlog zero_le_one (by positivity)
  have hround : (1 : ℤ) ≤ round (runtime n m) := by
    rw [round_eq]
    refine Int.le_floor.mpr ?_
    push_cast
    linarith
  rw [iterCap]
  exact (Int.le_toNat (le_trans zero_le_one hround)).mpr (by exact_mod_cast hround)

/-! ### fast_vals characterization -/

lemma fast_vals_eq (n : ℕ) (path : List ℕ) (allocation : List ℕ) :
    fast_vals n path allocation =
      ((calculate_agent_valuations n allocation).set (path.getD 0 0)
          ((calculate_agent_valuations n allocation).getD (path.getD 0 0) 0 + 1)).set
        (path.getD (path.length - 1) 0)
        (((calculate_agent_valuations n allocation).set (path.getD 0 0)
            ((calculate_agent_valuations n allocation).getD (path.getD 0 0) 0 + 1)).getD
          (path.getD (path.length - 1) 0) 0 - 1) := rfl

lemma fast_vals_getD (n : ℕ) (path : List ℕ) (allocation : List ℕ) (j : ℕ)
    (hfirst : path.getD 0 0 < n) (hlast : path.getD (path.length - 1) 0 < n) :
    (fast_vals n path allocation).getD j 0 =
      (calculate_agent_valuations n allocation).getD j 0
        + (if j = path.getD 0 0 then 1 else 0)
        - (if j = path.getD (path.length - 1) 0 then 1 else 0) := by
  have hlenav : (calculate_agent_valuations n allocation).length = n :=
    calculate_agent_valuations_length n allocation
  have hfirst2 : path.getD 0 0 < (calculate_agent_valuations n allocation).length := by
    rw [hlenav]; exact hfirst
  have hlast2 : path.getD (path.length - 1) 0 <
      ((calculate_agent_valuations n allocation).set (path.getD 0 0)
        ((calculate_agent_valuations n allocation).getD (path.getD 0 0) 0 + 1)).length := by
    rw [List.length_set, hlenav]; exact hlast
  rw [fast_vals_eq]
  by_cases hjl : j = path.getD (path.length - 1) 0
  · rw [hjl, getD_set_self _ _ _ _ hlast2, if_pos rfl]
    by_cases hjf : path.getD (path.length - 1) 0 = path.getD 0 0
    · rw [if_pos hjf, hjf, getD_set_self _ _ _ _ hfirst2]
    · rw [if_neg hjf, getD_set_ne _ _ _ (fun hc => hjf hc.symm)]
      ring
  · rw [getD_set_ne _ _ _ (fun hc => hjl hc.symm), if_neg hjl]
    by_cases hjf : j = path.getD 0 0
    · rw [if_pos hjf, hjf, getD_set_self _ _ _ _ hfirst2]
      ring
    · rw [if_neg hjf, getD_set_ne _ _ _ (fun hc => hjf hc.symm)]
      ring

/-! ### find_path characterization -/

lemma find_path_spec (n : ℕ) (apsp : List (List (List ℕ))) (alloc : List ℕ) :
    ((∀ p ∈ apsp.flatten.filter (fun p => !p.isEmpty),
        fast_nsw n p alloc
          ≤ split_nsw n ((calculate_agent_valuations n alloc).map fun v : ℤ => (v : ℝ))) →
      find_path n apsp alloc = []) ∧
    ((∃ p ∈ apsp.flatten.filter (fun p => !p.isEmpty),
        split_nsw n ((calculate_agent_valuations n alloc).map fun v : ℤ => (v : ℝ))
          < fast_nsw n p alloc) →
      find_path n apsp alloc ∈ apsp.flatten.filter (fun p => !p.isEmpty) ∧
      split_nsw n ((calculate_agent_valuations n alloc).map fun v : ℤ => (v : ℝ))
        < fast_nsw n (find_path n apsp alloc) alloc ∧
      (∀ q ∈ apsp.flatten.filter (fun p => !p.isEmpty),
        fast_nsw n q alloc ≤ fast_nsw n (find_path n apsp alloc) alloc) ∧
      ∃ l1 l2, apsp.flatten.filter (fun p => !p.isEmpty)
          = l1 ++ (find_path n apsp alloc) :: l2 ∧
        ∀ q ∈ l1, fast_nsw n q alloc < fast_nsw n (find_path n apsp alloc) alloc) := by
  have hbase : 0 ≤ split_nsw n ((calculate_agent_valuations n alloc).map fun v : ℤ => (v : ℝ)) :=
    split_nsw_nonneg n _ (calculate_agent_valuations_cast_nonneg n alloc)
  have hfp : find_path n apsp alloc =
      if ((apsp.flatten.filter (fun p => !p.isEmpty)).foldl
            (bestStep (fun p => fast_nsw n p alloc)) (([] : List ℕ), (0 : ℝ))).2
          > split_nsw n ((calculate_agent_valuations n alloc).map fun v : ℤ => (v : ℝ))
      then ((apsp.flatten.filter (fun p => !p.isEmpty)).foldl
            (bestStep (fun p => fast_nsw n p alloc)) (([] : List ℕ), (0 : ℝ))).1
      else [] := by
    rw [find_path_eq, foldl_rows_eq_join, foldl_skip_empty]
  have hspec := foldBest_spec (fun p => fast_nsw n p alloc)
    (apsp.flatten.filter (fun p => !p.isEmpty)) [] 0
  set r := (apsp.flatten.filter (fun p => !p.isEmpty)).foldl
    (bestStep (fun p => fast_nsw n p alloc)) (([] : List ℕ), (0 : ℝ)) with hrdef
  rcases hspec with ⟨heq, hall⟩ | ⟨hm0, heq, l1, l2, hdec, hpre, hsuf⟩
  · constructor
    · intro _
      rw [hfp, heq]
      split <;> rfl
    · rintro ⟨p, hp, hbp⟩
      exact absurd hbp (not_lt.mpr (le_trans (hall p hp) hbase))
  · have hr1mem : r.1 ∈ apsp.flatten.filter (fun p => !p.isEmpty) := by
      rw [hdec]
      exact List.mem_append_right _ (List.mem_cons_self ..)
    have hmax : ∀ q ∈ apsp.flatten.filter (fun p => !p.isEmpty),
        fast_nsw n q alloc ≤ r.2 := by
      intro q hq
      rw [hdec] at hq
      rcases List.mem_append.mp hq with hq | hq
      · exact le_of_lt (hpre q hq)
      · rcases List.mem_cons.mp hq with rfl | hq
        · rw [heq]
        · exact hsuf q hq
    constructor
    · intro hle
      rw [hfp, if_neg (not_lt.mpr (by rw [heq]; exact hle _ hr1mem))]
    · rintro ⟨p, hp, hbp⟩
      have h2 : split_nsw n ((calculate_agent_valuations n alloc).map fun v : ℤ => (v : ℝ))
          < r.2 :=
        lt_of_lt_of_le hbp (hmax p hp)
      rw [hfp, if_pos h2]
      exact ⟨hr1mem, heq ▸ h2, fun q hq => heq ▸ hmax q hq,
        l1, l2, hdec, fun q hq => heq ▸ hpre q hq⟩

/-! ### Claim theorems -/

/-- Claim C1, counterexample: for the envy graph with edges 0→1 and 1→2
and n=3 agents, the APSP solver run from source 0 does NOT store the
path [1] to node 1 (it stores [0, 1], which includes the source). -/
theorem C1_counterexample :
    ((solve_APSP 3 [[1], [2], []]).getD 0 []).getD 1 [] ≠ [1] := by decide

/-- Claim C1, amended: for the envy graph with edges 0→1 and 1→2 and
n=3, the path table from source 0 stores [0, 1] to node 1 and
[0, 1, 2] to node 2 (stored paths INCLUDE the source and end at the
target), and from source 2 every path is empty; in general every
nonempty stored shortest path begins with the source node and ends with
the target node. -/
theorem C1_apsp_paths_amended :
    solve_APSP 3 [[1], [2], []] =
      [[[], [0, 1], [0, 1, 2]], [[], [], [1, 2]], [[], [], []]] ∧
    ∀ (n : ℕ) (adj : List (List ℕ)) (s t : ℕ), s < n →
      ((solve_APSP n adj).getD s []).getD t [] ≠ [] →
      (((solve_APSP n adj).getD s []).getD t []).head? = some s ∧
      (((solve_APSP n adj).getD s []).getD t []).getLast? = some t := by
  refine ⟨by decide, ?_⟩
  intro n adj s t hs hne
  rw [solve_APSP_getD n adj hs] at hne ⊢
  have h := bfs_sound n adj s t hs hne
  exact ⟨h.1, h.2.1⟩

/-- Witness for the amended claim C1 at a concrete input. -/
theorem C1_apsp_paths_amended_witness :
    ((solve_APSP 3 [[1], [2], []]).getD 0 []).getD 2 [] ≠ [] ∧
    ((((solve_APSP 3 [[1], [2], []]).getD 0 []).getD 2 []).head? = some 0 ∧
      (((solve_APSP 3 [[1], [2], []]).getD 0 []).getD 2 []).getLast? = some 2) :=
  ⟨by decide, C1_apsp_paths_amended.2 3 [[1], [2], []] 0 2 (by decide) (by decide)⟩

/-- Claim C2 (the code contradicts it): on a path [0, 1, 2] where the
hop (0, 1) has no transferable item (agent 1 owns nothing) but the hop
(1, 2) does, `pick_items` silently skips the itemless hop and returns a
single item instead of two, and `execute_swap` then applies a
misaligned transfer: the item of hop (1, 2), item 0, is reassigned to
agent 0 (the path head), not to its hop receiver agent 1.  No failure
is signalled anywhere. -/
theorem C2_silent_skip_and_misalignment :
    pick_items [0, 1, 2] [2] (find_possession 3 [2]) (fun a _ => a == 1) = [0] ∧
    (pick_items [0, 1, 2] [2] (find_possession 3 [2]) (fun a _ => a == 1)).length
      ≠ ([0, 1, 2] : List ℕ).length - 1 ∧
    execute_swap [2] (pick_items [0, 1, 2] [2] (find_possession 3 [2]) (fun a _ => a == 1))
      [0, 1, 2] = [0] := by decide

/-- Claim C3, counterexample: the vector `[2] * 64` has length 64 and
values in [0, 10000], yet the direct formula wraps its int64 product
`2^64` to 0 and returns 0, while the chunked formula (exact Python
ints) returns `(2^64)^(1/7) > 0` — so the two do not agree within
relative error 1e-9. -/
theorem C3_counterexample :
    ¬ (|split_nsw 7 ((List.replicate 64 2).map fun v : ℕ => (v : ℝ))
          - nash_social_welfare 7 ((List.replicate 64 2).map fun v : ℕ => (v : ℤ))|
        ≤ 1e-9 * |nash_social_welfare 7 ((List.replicate 64 2).map fun v : ℕ => (v : ℤ))|) := by
  have hnash : nash_social_welfare 7 ((List.replicate 64 2).map fun v : ℕ => (v : ℤ)) = 0 := by
    have hw : wrap64 (((List.replicate 64 2).map fun v : ℕ => (v : ℤ)).prod) = 0 := by
      rw [List.map_replicate, List.prod_replicate]
      decide
    rw [nash_social_welfare, hw, Int.cast_zero]
    refine Real.zero_rpow ?_
    rw [abs_ne_zero]
    positivity
  have hsplit : split_nsw 7 ((List.replicate 64 2).map fun v : ℕ => (v : ℝ))
      = ((2 : ℝ) ^ (64 : ℕ)) ^ ((1 : ℝ) / 7) := by
    rw [split_nsw_eq_rpow 7 _ (by
        intro v hv
        rcases List.mem_map.mp hv with ⟨w, _, rfl⟩
        positivity),
      List.map_replicate, List.prod_replicate]
    norm_num
  have hpos : 0 < split_nsw 7 ((List.replicate 64 2).map fun v : ℕ => (v : ℝ)) := by
    rw [hsplit]
    exact Real.rpow_pos_of_pos (by positivity) _
  rw [hnash, sub_zero, abs_zero, mul_zero, abs_of_pos hpos]
  exact not_le.mpr hpos

/-- Claim C3, amended: for every vector of non-negative integer agent
valuations of length at most 1000 with values in [0, 10000] whose
exact product is below `2^63` (so the int64 product of the direct
formula does not wrap), the chunked formula and the direct formula
agree within 1e-9 relative error (exactly, in the real model). -/
theorem C3_split_nsw_agrees (n : ℕ) (vals : List ℕ)
    (h1 : vals.length ≤ 1000) (h2 : ∀ v ∈ vals, v ≤ 10000)
    (h3 : vals.prod < 2 ^ 63) :
    |split_nsw n (vals.map fun v : ℕ => (v : ℝ))
        - nash_social_welfare n (vals.map fun v : ℕ => (v : ℤ))|
      ≤ 1e-9 * |nash_social_welfare n (vals.map fun v : ℕ => (v : ℤ))| := by
  have hnn : ∀ v ∈ vals.map (fun v : ℕ => (v : ℝ)), 0 ≤ v := by
    intro v hv
    rcases List.mem_map.mp hv with ⟨w, _, rfl⟩
    positivity
  have hcast : ((vals.map fun v : ℕ => (v : ℤ)).prod) = ((vals.prod : ℕ) : ℤ) :=
    (Nat.cast_list_prod vals).symm
  have hwrap : wrap64 ((vals.prod : ℕ) : ℤ) = ((vals.prod : ℕ) : ℤ) :=
    wrap64_eq_self _ (by positivity) (by exact_mod_cast h3)
  have hreal : ((vals.map fun v : ℕ => (v : ℝ)).prod) = ((vals.prod : ℕ) : ℝ) :=
    (Nat.cast_list_prod vals).symm
  rw [split_nsw_eq_rpow n _ hnn, nash_social_welfare, hcast, hwrap, hreal,
    abs_of_nonneg (by positivity : (0 : ℝ) ≤ 1 / n), Int.cast_natCast,
    sub_self, abs_zero]
  positivity

/-- Witness for the amended claim C3 at a concrete input. -/
theorem C3_split_nsw_agrees_witness :
    ([(2 : ℕ), 3].length ≤ 1000 ∧ (∀ v ∈ [(2 : ℕ), 3], v ≤ 10000) ∧
      [(2 : ℕ), 3].prod < 2 ^ 63) ∧
    |split_nsw 7 ([(2 : ℕ), 3].map fun v : ℕ => (v : ℝ))
        - nash_social_welfare 7 ([(2 : ℕ), 3].map fun v : ℕ => (v : ℤ))|
      ≤ 1e-9 * |nash_social_welfare 7 ([(2 : ℕ), 3].map fun v : ℕ => (v : ℤ))| :=
  ⟨⟨by decide, by decide, by decide⟩,
    C3_split_nsw_agrees 7 [2, 3] (by decide) (by decide) (by decide)⟩

/-- Claim C6: a valuation vector containing a zero entry makes the
chunked welfare evaluator return exactly 0. -/
theorem C6_zero_welfare (n : ℕ) (vals : List ℕ) (hn : 0 < n) (h0 : 0 ∈ vals) :
    split_nsw n (vals.map fun v : ℕ => (v : ℝ)) = 0 := by
  have hnn : ∀ v ∈ vals.map (fun v : ℕ => (v : ℝ)), 0 ≤ v := by
    intro v hv
    rcases List.mem_map.mp hv with ⟨w, _, rfl⟩
    positivity
  rw [split_nsw_eq_rpow n _ hnn]
  have hprod : (vals.map fun v : ℕ => (v : ℝ)).prod = 0 :=
    List.prod_eq_zero (List.mem_map.mpr ⟨0, h0, by norm_num⟩)
  rw [hprod]
  exact Real.zero_rpow (one_div_ne_zero (Nat.cast_ne_zero.mpr hn.ne'))

/-- Witness for claim C6 at a concrete input. -/
theorem C6_zero_welfare_witness :
    0 < 7 ∧ split_nsw 7 ([(1 : ℕ), 0, 2].map fun v : ℕ => (v : ℝ)) = 0 :=
  ⟨by decide, C6_zero_welfare 7 [1, 0, 2] (by decide) (by decide)⟩

/-- Claim C4: on a non-empty path the selector evaluates the count
vector with the path head incremented, the path last decremented and
intermediates unchanged (e.g. counts [2,2,2] with path [0,2] give
[3,2,1]); `find_path` returns a path only when the maximum hypothetical
welfare strictly exceeds the baseline (otherwise the empty path), and
among equal maxima the first path in traversal order (rows = sources,
then destinations, in index order) wins: every earlier candidate
evaluates strictly lower. -/
theorem C4_selector :
    (∀ (n : ℕ) (path allocation : List ℕ) (j : ℕ),
      path ≠ [] → path.getD 0 0 < n → path.getD (path.length - 1) 0 < n →
      (fast_vals n path allocation).getD j 0 =
        (calculate_agent_valuations n allocation).getD j 0
          + (if j = path.getD 0 0 then 1 else 0)
          - (if j = path.getD (path.length - 1) 0 then 1 else 0)) ∧
    (calculate_agent_valuations 3 [0, 0, 1, 1, 2, 2] = [2, 2, 2] ∧
      fast_vals 3 [0, 2] [0, 0, 1, 1, 2, 2] = [3, 2, 1]) ∧
    ∀ (n : ℕ) (apsp : List (List (List ℕ))) (allocation : List ℕ),
      ((∀ p ∈ apsp.flatten.filter (fun p => !p.isEmpty),
          fast_nsw n p allocation
            ≤ split_nsw n ((calculate_agent_valuations n allocation).map fun v : ℤ => (v : ℝ))) →
        find_path n apsp allocation = []) ∧
      ((∃ p ∈ apsp.flatten.filter (fun p => !p.isEmpty),
          split_nsw n ((calculate_agent_valuations n allocation).map fun v : ℤ => (v : ℝ))
            < fast_nsw n p allocation) →
        find_path n apsp allocation ∈ apsp.flatten.filter (fun p => !p.isEmpty) ∧
        split_nsw n ((calculate_agent_valuations n allocation).map fun v : ℤ => (v : ℝ))
          < fast_nsw n (find_path n apsp allocation) allocation ∧
        (∀ q ∈ apsp.flatten.filter (fun p => !p.isEmpty),
          fast_nsw n q allocation ≤ fast_nsw n (find_path n apsp allocation) allocation) ∧
        ∃ l1 l2, apsp.flatten.filter (fun p => !p.isEmpty)
            = l1 ++ (find_path n apsp allocation) :: l2 ∧
          ∀ q ∈ l1, fast_nsw n q allocation
            < fast_nsw n (find_path n apsp allocation) allocation) :=
  ⟨fun n path allocation j _ h1 h2 => fast_vals_getD n path allocation j h1 h2,
    ⟨by decide, by decide⟩,
    fun n apsp allocation => find_path_spec n apsp allocation⟩

/-- Witness for claim C4 at a concrete input. -/
theorem C4_selector_witness :
    ([0, 2] : List ℕ) ≠ [] ∧
    (fast_vals 3 [0, 2] [0, 0, 1, 1, 2, 2]).getD 0 0 =
      (calculate_agent_valuations 3 [0, 0, 1, 1, 2, 2]).getD 0 0
        + (if 0 = ([0, 2] : List ℕ).getD 0 0 then 1 else 0)
        - (if 0 = ([0, 2] : List ℕ).getD (([0, 2] : List ℕ).length - 1) 0 then 1 else 0) :=
  ⟨by decide, C4_selector.1 3 [0, 2] [0, 0, 1, 1, 2, 2] 0 (by decide) (by decide) (by decide)⟩

/-- Claim C7: for every non-empty path stored in the APSP table built
from the envy graph of the current allocation, `pick_items` returns
exactly `len(path) - 1` items, one per consecutive (receiver, giver)
hop, and each selected item is the first item (in index order) of the
giver's possession list that the receiver likes; the no-item branch is
unreachable under this precondition. -/
theorem C7_pick_items_complete (n m : ℕ) (preferences : ℕ → ℕ → Bool)
    (allocation : List ℕ) (s t : ℕ) (path : List ℕ)
    (hpath : path = ((solve_APSP n
      (shorten_envy_list (calculate_item_envy_relations n m preferences allocation))).getD s []).getD t [])
    (hs : s < n) (hlen : allocation.length = m)
    (hav : ∀ x ∈ allocation, x < n) (hne : path ≠ []) :
    (pick_items path allocation (find_possession n allocation) preferences).length
      = path.length - 1 ∧
    ∀ k, k < path.length - 1 →
      preferences (path.getD k 0)
          ((pick_items path allocation (find_possession n allocation) preferences).getD k 0)
        = true ∧
      allocation.getD
          ((pick_items path allocation (find_possession n allocation) preferences).getD k 0) 0
        = path.getD (k + 1) 0 ∧
      (pick_items path allocation (find_possession n allocation) preferences).getD k 0 < m ∧
      ∀ j ∈ (find_possession n allocation).getD (path.getD (k + 1) 0) [],
        preferences (path.getD k 0) j = true →
        (pick_items path allocation (find_possession n allocation) preferences).getD k 0 ≤ j := by
  have hne2 : (bfs n (shorten_envy_list (calculate_item_envy_relations n m preferences allocation)) s).getD t [] ≠ [] := by
    rw [← solve_APSP_getD n _ hs, ← hpath]
    exact hne
  have hsound := bfs_sound n
    (shorten_envy_list (calculate_item_envy_relations n m preferences allocation)) s t hs hne2
  have hhead : path.head? = some s := by
    rw [hpath, solve_APSP_getD n _ hs]
    exact hsound.1
  have hchain : List.Chain' (adjRel (shorten_envy_list (calculate_item_envy_relations n m preferences allocation))) path := by
    rw [hpath, solve_APSP_getD n _ hs]
    exact hsound.2.2
  have hR : ∀ a b, a < n →
      adjRel (shorten_envy_list (calculate_item_envy_relations n m preferences allocation)) a b →
      b < n := by
    intro a b ha hab
    rcases (mem_envy_row n m preferences allocation ha b).mp hab with ⟨_, i, him, _, hai⟩
    rw [← hai]
    exact hav _ (getD_mem_of_lt allocation i 0 (by rw [hlen]; exact him))
  have hall_lt : ∀ x ∈ path, x < n :=
    chain'_all_lt n _ hR path hchain hhead hs
  have hlen1 : 1 ≤ path.length := List.length_pos.mpr hne
  have hhop : ∀ k, k < path.length - 1 →
      ∃ v, ((find_possession n allocation).getD (path.getD (k + 1) 0) []).find?
          (fun giveable_item => preferences (path.getD k 0) giveable_item) = some v ∧
        preferences (path.getD k 0) v = true ∧
        allocation.getD v 0 = path.getD (k + 1) 0 ∧ v < m ∧
        ∀ j ∈ (find_possession n allocation).getD (path.getD (k + 1) 0) [],
          preferences (path.getD k 0) j = true → v ≤ j := by
    intro k hk
    have hk1 : k < path.length := by omega
    have hk2 : k + 1 < path.length := by omega
    have hrecv_lt : path.getD k 0 < n := hall_lt _ (getD_mem_of_lt path k 0 hk1)
    have hgiver_lt : path.getD (k + 1) 0 < n := hall_lt _ (getD_mem_of_lt path (k + 1) 0 hk2)
    have hedge : adjRel (shorten_envy_list (calculate_item_envy_relations n m preferences allocation))
        (path.getD k 0) (path.getD (k + 1) 0) := by
      have hg := List.chain'_iff_get.mp hchain k (by omega)
      rwa [List.get_eq_getElem, List.get_eq_getElem,
        ← List.getD_eq_getElem path 0 hk1, ← List.getD_eq_getElem path 0 hk2] at hg
    rcases (mem_envy_row n m preferences allocation hrecv_lt _).mp hedge with
      ⟨_, i0, hi0m, hpref0, hallo0⟩
    have hi0mem : i0 ∈ (find_possession n allocation).getD (path.getD (k + 1) 0) [] :=
      (mem_find_possession n allocation hgiver_lt i0).mpr ⟨by rw [hlen]; exact hi0m, hallo0⟩
    have hsome : (((find_possession n allocation).getD (path.getD (k + 1) 0) []).find?
        (fun giveable_item => preferences (path.getD k 0) giveable_item)).isSome :=
      List.find?_isSome.mpr ⟨i0, hi0mem, hpref0⟩
    rcases Option.isSome_iff_exists.mp hsome with ⟨v, hv⟩
    refine ⟨v, hv, List.find?_some hv, ?_, ?_, ?_⟩
    · exact ((mem_find_possession n allocation hgiver_lt v).mp
        (List.mem_of_find?_eq_some hv)).2
    · have := ((mem_find_possession n allocation hgiver_lt v).mp
        (List.mem_of_find?_eq_some hv)).1
      rwa [hlen] at this
    · exact fun j hj hpj =>
        find?_min_of_pairwise_lt _ _ (pairwise_find_possession n allocation hgiver_lt) hv j hj hpj
  have hsome_all : ∀ k ∈ List.range (path.length - 1),
      (((find_possession n allocation).getD (path.getD (k + 1) 0) []).find?
        (fun giveable_item => preferences (path.getD k 0) giveable_item)).isSome := by
    intro k hk
    rcases hhop k (List.mem_range.mp hk) with ⟨v, hv, _⟩
    rw [hv]
    rfl
  constructor
  · rw [pick_items_eq, filterMap_all_some _ _ hsome_all, List.length_map,
      List.length_range]
  · intro k hk
    rcases hhop k hk with ⟨v, hv, hp1, hp2, hp3, hp4⟩
    have hsel : (pick_items path allocation (find_possession n allocation) preferences).getD k 0 = v := by
      rw [pick_items_eq, filterMap_all_some _ _ hsome_all, getD_map_range _ _ hk, hv]
      rfl
    rw [hsel]
    exact ⟨hp1, hp2, hp3, hp4⟩

/-- Witness for claim C7 at a concrete input: a 2-cycle envy graph. -/
theorem C7_pick_items_complete_witness :
    (([0, 1] : List ℕ) = ((solve_APSP 2
      (shorten_envy_list (calculate_item_envy_relations 2 2 (fun a i => a != i) [0, 1]))).getD 0 []).getD 1 []) ∧
    (pick_items [0, 1] [0, 1] (find_possession 2 [0, 1]) (fun a i => a != i)).length
      = ([0, 1] : List ℕ).length - 1 ∧
    ∀ k, k < ([0, 1] : List ℕ).length - 1 →
      (fun a i => a != i) (([0, 1] : List ℕ).getD k 0)
          ((pick_items [0, 1] [0, 1] (find_possession 2 [0, 1]) (fun a i => a != i)).getD k 0)
        = true ∧
      ([0, 1] : List ℕ).getD
          ((pick_items [0, 1] [0, 1] (find_possession 2 [0, 1]) (fun a i => a != i)).getD k 0) 0
        = ([0, 1] : List ℕ).getD (k + 1) 0 ∧
      (pick_items [0, 1] [0, 1] (find_possession 2 [0, 1]) (fun a i => a != i)).getD k 0 < 2 ∧
      ∀ j ∈ (find_possession 2 [0, 1]).getD (([0, 1] : List ℕ).getD (k + 1) 0) [],
        (fun a i => a != i) (([0, 1] : List ℕ).getD k 0) j = true →
        (pick_items [0, 1] [0, 1] (find_possession 2 [0, 1]) (fun a i => a != i)).getD k 0 ≤ j :=
  ⟨by decide,
    C7_pick_items_complete 2 2 (fun a i => a != i) [0, 1] 0 1 [0, 1]
      (by decide) (by decide) (by decide) (by decide) (by decide)⟩

/-- Claim C5: for every preferences matrix and allocation, each agent's
adjacency list in the shortened envy graph is sorted ascending and
duplicate-free, contains `b` iff `b` differs from the agent and the
agent likes some item allocated to `b`, and never contains the agent
itself. -/
theorem C5_envy_graph_rows (n m : ℕ) (preferences : ℕ → ℕ → Bool)
    (allocation : List ℕ) (a : ℕ) (ha : a < n) :
    List.Sorted (· ≤ ·)
      ((shorten_envy_list (calculate_item_envy_relations n m preferences allocation)).getD a []) ∧
    ((shorten_envy_list (calculate_item_envy_relations n m preferences allocation)).getD a []).Nodup ∧
    (∀ b, b ∈ (shorten_envy_list (calculate_item_envy_relations n m preferences allocation)).getD a []
      ↔ b ≠ a ∧ ∃ i, i < m ∧ preferences a i = true ∧ allocation.getD i 0 = b) ∧
    a ∉ (shorten_envy_list (calculate_item_envy_relations n m preferences allocation)).getD a [] := by
  refine ⟨sorted_envy_row n m preferences allocation ha,
    nodup_envy_row n m preferences allocation ha,
    fun b => mem_envy_row n m preferences allocation ha b, fun hc => ?_⟩
  exact ((mem_envy_row n m preferences allocation ha a).mp hc).1 rfl

/-- Witness for claim C5 at a concrete input. -/
theorem C5_envy_graph_rows_witness :
    List.Sorted (· ≤ ·)
      ((shorten_envy_list (calculate_item_envy_relations 2 2 (fun a i => a != i) [0, 1])).getD 0 []) ∧
    ((shorten_envy_list (calculate_item_envy_relations 2 2 (fun a i => a != i) [0, 1])).getD 0 []).Nodup ∧
    (∀ b, b ∈ (shorten_envy_list (calculate_item_envy_relations 2 2 (fun a i => a != i) [0, 1])).getD 0 []
      ↔ b ≠ 0 ∧ ∃ i, i < 2 ∧ (fun a i => a != i) 0 i = true ∧ ([0, 1] : List ℕ).getD i 0 = b) ∧
    0 ∉ (shorten_envy_list (calculate_item_envy_relations 2 2 (fun a i => a != i) [0, 1])).getD 0 [] :=
  C5_envy_graph_rows 2 2 (fun a i => a != i) [0, 1] 0 (by decide)

/-- Claim C8: the optimization loop of `main` executes at most
`round(2 n (m+1) ln(n m))` iterations; exhausting that budget without
convergence just ends the loop with the current allocation (the
iteration count then equals the cap, and the result is still an
allocation of the same length), with no error path. -/
theorem C8_iteration_cap (n m : ℕ) (preferences : ℕ → ℕ → Bool)
    (allocation : List ℕ) (hn : 2 ≤ n) (hm : n ≤ m) :
    (solve_main n m preferences allocation).iterations ≤ iterCap n m ∧
    ((solve_main n m preferences allocation).converged = false →
      (solve_main n m preferences allocation).iterations = iterCap n m) ∧
    (solve_main n m preferences allocation).allocation.length = allocation.length := by
  refine ⟨?_, ?_, ?_⟩
  · have h := solve_loop_iterations_le n m preferences (iterCap n m) allocation [] 0
    rw [Nat.zero_add] at h
    exact h
  · intro hc
    have h := solve_loop_exhausted n m preferences (iterCap n m) allocation [] 0 hc
    rw [Nat.zero_add] at h
    exact h
  · exact solve_loop_alloc_length n m preferences (iterCap n m) allocation [] 0

/-- Witness for claim C8 at a concrete input. -/
theorem C8_iteration_cap_witness :
    (2 ≤ 2 ∧ 2 ≤ 2) ∧
    (solve_main 2 2 (fun _ _ => true) [0, 1]).iterations ≤ iterCap 2 2 ∧
    ((solve_main 2 2 (fun _ _ => true) [0, 1]).converged = false →
      (solve_main 2 2 (fun _ _ => true) [0, 1]).iterations = iterCap 2 2) ∧
    (solve_main 2 2 (fun _ _ => true) [0, 1]).allocation.length = ([0, 1] : List ℕ).length :=
  ⟨⟨le_refl 2, le_refl 2⟩,
    C8_iteration_cap 2 2 (fun _ _ => true) [0, 1] (le_refl 2) (le_refl 2)⟩

/-- Claim C9: `execute_swap` preserves totality and exclusivity: if
every item is owned by a valid agent and the path mentions only valid
agents, then after the swap every item still has exactly one owner and
the possession view is a partition of the items. -/
theorem C9_execute_swap_partition (n : ℕ)
    (allocation swapping_list best_path : List ℕ) (hn : 0 < n)
    (halloc : ∀ x ∈ allocation, x < n) (hpath : ∀ x ∈ best_path, x < n) :
    (execute_swap allocation swapping_list best_path).length = allocation.length ∧
    (∀ x ∈ execute_swap allocation swapping_list best_path, x < n) ∧
    ∀ i, i < allocation.length →
      ∃! a, a < n ∧
        i ∈ (find_possession n (execute_swap allocation swapping_list best_path)).getD a [] := by
  have hlen := execute_swap_length allocation swapping_list best_path
  have hbnd := execute_swap_bound n hn allocation swapping_list best_path halloc hpath
  refine ⟨hlen, hbnd, fun i hi => ?_⟩
  have hi2 : i < (execute_swap allocation swapping_list best_path).length := by
    rw [hlen]; exact hi
  have howner : (execute_swap allocation swapping_list best_path).getD i 0 < n :=
    hbnd _ (getD_mem_of_lt _ i 0 hi2)
  refine ⟨(execute_swap allocation swapping_list best_path).getD i 0, ⟨howner, ?_⟩, ?_⟩
  · exact (mem_find_possession n _ howner i).mpr ⟨hi2, rfl⟩
  · rintro b ⟨hb, hmem⟩
    exact (((mem_find_possession n _ hb i).mp hmem).2).symm

/-- Witness for claim C9 at a concrete input. -/
theorem C9_execute_swap_partition_witness :
    (execute_swap [0, 1] [0] [1, 0]).length = ([0, 1] : List ℕ).length ∧
    (∀ x ∈ execute_swap [0, 1] [0] [1, 0], x < 2) ∧
    ∀ i, i < ([0, 1] : List ℕ).length →
      ∃! a, a < 2 ∧ i ∈ (find_possession 2 (execute_swap [0, 1] [0] [1, 0])).getD a [] :=
  C9_execute_swap_partition 2 [0, 1] [0] [1, 0] (by decide) (by decide) (by decide)

/-- Claim C10: the optimization loop is idempotent on its fixed points:
if the selector returns the empty path for an allocation, then running
the loop again (with any positive budget, in particular the full
budget) converges in the first iteration, records no additional swap,
and leaves the allocation unchanged. -/
theorem C10_converged_idempotent (n m : ℕ) (preferences : ℕ → ℕ → Bool)
    (allocation : List ℕ) (hn : 2 ≤ n) (hm : n ≤ m)
    (hconv : find_path n
      (solve_APSP n (shorten_envy_list (calculate_item_envy_relations n m preferences allocation)))
      allocation = []) :
    (∀ (fuel : ℕ) (swaps : List (List ℕ)) (iter : ℕ),
      solve_loop n m preferences (fuel + 1) allocation swaps iter
        = ⟨allocation, swaps, iter + 1, true⟩) ∧
    solve_main n m preferences allocation = ⟨allocation, [], 1, true⟩ := by
  have hstep : ∀ (fuel : ℕ) (swaps : List (List ℕ)) (iter : ℕ),
      solve_loop n m preferences (fuel + 1) allocation swaps iter
        = ⟨allocation, swaps, iter + 1, true⟩ := by
    intro fuel swaps iter
    rw [solve_loop_succ, if_pos hconv]
  refine ⟨hstep, ?_⟩
  obtain ⟨k, hk⟩ : ∃ k, iterCap n m = k + 1 := by
    have h1 := iterCap_pos n m hn hm
    exact ⟨iterCap n m - 1, by omega⟩
  show solve_loop n m preferences (iterCap n m) allocation [] 0 = _
  rw [hk, hstep k [] 0]

/-- Witness for claim C10 at a concrete input: a 2-agent instance in
which both agents already own exactly the item they like. -/
theorem C10_converged_idempotent_witness :
    solve_main 2 2 (fun a i => a == i) [0, 1] = ⟨[0, 1], [], 1, true⟩ :=
  (C10_converged_idempotent 2 2 (fun a i => a == i) [0, 1] (le_refl 2) (le_refl 2)
    (by
      have happ : solve_APSP 2
          (shorten_envy_list (calculate_item_envy_relations 2 2 (fun a i => a == i) [0, 1]))
          = [[[], []], [[], []]] := by decide
      rw [happ, find_path_eq]
      simp only [List.foldl_cons, List.foldl_nil, if_pos]
      split <;> rfl)).2

end AlgBinary
